import Mathlib

/-!
Verification of the pyring CryptoNote-style one-time ring signature
implementation (`src/pyring`), as a shallow embedding in Lean 4.

Conventions of the embedding:

* A `Scalar` (src/pyring/sc25519.py) stores 32 raw little-endian bytes;
  we represent that raw buffer by its integer value, a `Nat` below `2^256`.
  The libsodium scalar primitives (`crypto_core_ed25519_scalar_add` / `_sub` /
  `_mul` / `_negate` / `_reduce` / `_invert`) always write a fully reduced
  representative modulo `L` (the subgroup order); the corresponding Lean
  functions compute the same values with explicit `% L`.
* A `Point` (src/pyring/ge.py) used by the ring protocol lies in the
  prime-order subgroup of Ed25519, which is cyclic of order `L`; we represent
  a point by its discrete logarithm with respect to the base point, an element
  of `ZMod L`.  The 32-byte point encoding is injective on the subgroup, so
  two points are equal iff their encodings are equal, and the model can use
  the group elements themselves wherever the code uses `Point.as_bytes()`.
* Hash functions (SHA3-512 via `hashlib`) and the CSPRNG are external inputs;
  they are universally quantified parameters of the theorems.
-/

namespace Pyring

/-- `L`, the order of the prime-order subgroup of Ed25519 (sc25519.py line 31). -/
def L : Nat := 2 ^ 252 + 27742317777372353535851937790883648493

/-- `Q`, the order of the base field of Ed25519 (ge.py line 37). -/
def Q : Nat := 2 ^ 255 - 19

theorem L_pos : 0 < L := by decide

theorem Q_pos : 0 < Q := by decide

theorem L_lt_two_pow : L < 2 ^ 256 := by decide

instance : NeZero L := ⟨by decide⟩

/-! ## Scalars (sc25519.py)

A `Scalar`'s `data` field holds 32 raw little-endian bytes; its integer value
(`Scalar.__int__`) is a `Nat` below `2^256`.  Arithmetic delegates to
libsodium, which returns the canonical representative modulo `L`. -/

/-- `Scalar.__add__` via `crypto_core_ed25519_scalar_add`: the canonical
representative of the sum modulo `L`. -/
def scAdd (a b : Nat) : Nat := (a + b) % L

/-- `Scalar.__sub__` via `crypto_core_ed25519_scalar_sub`: the canonical
representative of the difference modulo `L`. -/
def scSub (a b : Nat) : Nat := (a % L + (L - b % L)) % L

/-- `Scalar.__mul__` via `crypto_core_ed25519_scalar_mul`: the canonical
representative of the product modulo `L`. -/
def scMul (a b : Nat) : Nat := a * b % L

/-- `Scalar.__neg__` via `crypto_core_ed25519_scalar_negate`. -/
def scNeg (a : Nat) : Nat := (L - a % L) % L

/-- Square-and-multiply modular exponentiation, structural in a fuel
parameter (enough fuel: one step per bit of the exponent). -/
def powModF : Nat → Nat → Nat → Nat → Nat
  | 0, _, _, m => 1 % m
  | fuel + 1, b, e, m =>
    if e = 0 then 1 % m
    else
      let h := powModF fuel (b * b % m) (e / 2) m
      if e % 2 = 1 then h * b % m else h

/-- libsodium's `crypto_core_ed25519_scalar_invert` output buffer:
`sc25519_invert` computes `b ^ (L - 2) mod L` (Fermat inversion).  For
`b = 0` the buffer receives `0`; the function's `-1` error return for zero
input is ignored by the caller in sc25519.py (`Scalar.__truediv__`). -/
def scInvert (b : Nat) : Nat := powModF 300 b (L - 2) L

/-- `Scalar.__truediv__` (sc25519.py lines 142-155): inversion followed by
multiplication; when the dividend equals `1` the inverse is returned
directly.  No failure path exists: the return code of
`crypto_core_ed25519_scalar_invert` is never checked, so no exception is
raised for a zero divisor. -/
def scDiv (a b : Nat) : Nat :=
  let inverted := scInvert b
  if a = 1 then inverted else scMul a inverted

/-- `Scalar.from_unreduced` on the integer value of a 64-byte buffer:
`crypto_core_ed25519_scalar_reduce` returns the value modulo `L`. -/
def scReduce (n : Nat) : Nat := n % L

/-- `Scalar.__init__` from a Python `int`: `n.to_bytes(32, "little")` stores
the raw value without reduction, raising `OverflowError` when the value does
not fit 32 bytes. -/
def scalarFromInt (n : Nat) : Option Nat := if n < 2 ^ 256 then some n else none

/-- `int.from_bytes(bytes, "little")`. -/
def fromLE : List Nat → Nat
  | [] => 0
  | b :: rest => b + 256 * fromLE rest

/-- `n.to_bytes(k, "little")` (the `k` little-endian bytes of `n`). -/
def leBytes : Nat → Nat → List Nat
  | 0, _ => []
  | k + 1, n => n % 256 :: leBytes k (n / 256)

theorem scAdd_lt (a b : Nat) : scAdd a b < L := Nat.mod_lt _ L_pos

theorem scSub_lt (a b : Nat) : scSub a b < L := Nat.mod_lt _ L_pos

theorem scMul_lt (a b : Nat) : scMul a b < L := Nat.mod_lt _ L_pos

theorem scNeg_lt (a : Nat) : scNeg a < L := Nat.mod_lt _ L_pos

theorem scReduce_lt (n : Nat) : scReduce n < L := Nat.mod_lt _ L_pos

theorem powModF_lt (fuel b e m : Nat) (hm : 0 < m) : powModF fuel b e m < m := by
  induction fuel generalizing b e with
  | zero => exact Nat.mod_lt _ hm
  | succ fuel ih =>
    simp only [powModF]
    split
    · exact Nat.mod_lt _ hm
    · split
      · exact Nat.mod_lt _ hm
      · exact ih _ _

theorem scInvert_lt (b : Nat) : scInvert b < L := powModF_lt _ _ _ _ L_pos

theorem scDiv_lt (a b : Nat) : scDiv a b < L := by
  unfold scDiv
  split
  · exact scInvert_lt b
  · exact scMul_lt _ _

/-- Casting a scalar-addition result into `ZMod L` is addition. -/
theorem scAdd_cast (a b : Nat) : ((scAdd a b : Nat) : ZMod L) = (a : ZMod L) + b := by
  unfold scAdd
  rw [ZMod.natCast_mod]
  push_cast
  ring

/-- Casting a scalar-subtraction result into `ZMod L` is subtraction. -/
theorem scSub_cast (a b : Nat) : ((scSub a b : Nat) : ZMod L) = (a : ZMod L) - b := by
  unfold scSub
  rw [ZMod.natCast_mod, Nat.cast_add, Nat.cast_sub (Nat.le_of_lt (Nat.mod_lt _ L_pos)),
    ZMod.natCast_mod, ZMod.natCast_mod, ZMod.natCast_self]
  ring

/-- Casting a scalar-multiplication result into `ZMod L` is multiplication. -/
theorem scMul_cast (a b : Nat) : ((scMul a b : Nat) : ZMod L) = (a : ZMod L) * b := by
  unfold scMul
  rw [ZMod.natCast_mod]
  push_cast
  ring

/-- A canonical scalar is zero iff its image in `ZMod L` is zero. -/
theorem scSub_eq_zero_iff (a b : Nat) : scSub a b = 0 ↔ (a : ZMod L) = (b : ZMod L) := by
  constructor
  · intro h
    have hc := scSub_cast a b
    rw [h] at hc
    simp only [Nat.cast_zero] at hc
    exact eq_of_sub_eq_zero hc.symm
  · intro h
    have hcast : ((scSub a b : Nat) : ZMod L) = 0 := by
      rw [scSub_cast, h]; ring
    have hdvd : L ∣ scSub a b := (ZMod.natCast_zmod_eq_zero_iff_dvd _ _).mp hcast
    exact Nat.eq_zero_of_dvd_of_lt hdvd (scSub_lt a b)

/-! ## Points (ge.py)

The ring protocol operates on points of the prime-order subgroup of Ed25519,
which is cyclic of order `L`; a point is represented by its discrete
logarithm with respect to the base point `G`, an element of `ZMod L`.
`crypto_scalarmult_ed25519_noclamp` uses the raw (unclamped) 32-byte scalar,
and on a subgroup point the result depends only on the scalar modulo `L`. -/

/-- A point of the prime-order subgroup, as its discrete log w.r.t. `G`. -/
abbrev Point := ZMod L

/-- The base point `G` (ge.py line 157): discrete log `1`. -/
def Gpt : Point := 1

/-- The identity `O` (ge.py line 156): discrete log `0`. -/
def Opt : Point := 0

/-- `Point.__add__` via `crypto_core_ed25519_add`. -/
def ptAdd (P R : Point) : Point := P + R

/-- Generic scalar multiplication `Point.__rmul__` via
`crypto_scalarmult_ed25519_noclamp` (ge.py lines 111-119): the raw 32-byte
scalar value acts on the point; on the order-`L` subgroup this is the action
of the value modulo `L`. -/
def ptMul (n : Nat) (P : Point) : Point := (n : ZMod L) * P

/-- Precomputed table entry `256^i · G` used by the specialized base-point
routine.  Modelled from the spec: `crypto_scalarmult_ed25519_base_noclamp`
is a precomputed-table base-point multiplication provided by libsodium
(outside src/); the spec requires only that it is a table-driven routine
computing `n · G`. -/
def baseTable (i : Nat) : Point := (256 : ZMod L) ^ i

/-- The byte `i` of the 32-byte little-endian scalar buffer `n`. -/
def scalarByte (n i : Nat) : Nat := n / 256 ^ i % 256

/-- Specialized base-point multiplication `Generator.__rmul__`
(ge.py lines 146-153).  Modelled from the spec: libsodium's
`crypto_scalarmult_ed25519_base_noclamp` (not in src/) combines the bytes of
the scalar with a precomputed table of multiples of `G`. -/
def baseMul (n : Nat) : Point :=
  ((List.range 32).map (fun i => ((scalarByte n i : Nat) : ZMod L) * baseTable i)).sum

theorem digit_mod_recomp (b : Nat) (hb : 0 < b) (k n : Nat) :
    n % (b ^ k * b) = n % b ^ k + b ^ k * (n / b ^ k % b) := by
  have hbk : 0 < b ^ k := Nat.pos_pow_of_pos k hb
  have h1 : n % (b ^ k * b) / b ^ k = n / b ^ k % b := Nat.mod_mul_right_div_self n (b ^ k) b
  have h2 : n % (b ^ k * b) % b ^ k = n % b ^ k :=
    Nat.mod_mod_of_dvd n (Dvd.intro b rfl)
  calc n % (b ^ k * b)
      = b ^ k * (n % (b ^ k * b) / b ^ k) + n % (b ^ k * b) % b ^ k :=
        (Nat.div_add_mod _ _).symm
    _ = n % b ^ k + b ^ k * (n / b ^ k % b) := by rw [h1, h2]; omega

/-- The table-driven sum over the first `k` bytes recovers the scalar value
modulo `256^k`, as an element of `ZMod L`. -/
theorem baseMul_table_sum (k n : Nat) :
    ((List.range k).map (fun i => ((scalarByte n i : Nat) : ZMod L) * baseTable i)).sum
      = ((n % 256 ^ k : Nat) : ZMod L) := by
  induction k with
  | zero => simp [Nat.mod_one]
  | succ k ih =>
    rw [List.range_succ, List.map_append, List.sum_append]
    simp only [List.map_cons, List.map_nil, List.sum_cons, List.sum_nil, add_zero]
    rw [ih]
    have : n % 256 ^ (k + 1) = n % 256 ^ k + 256 ^ k * (n / 256 ^ k % 256) := by
      rw [pow_succ]
      exact digit_mod_recomp 256 (by norm_num) k n
    rw [this]
    unfold scalarByte baseTable
    push_cast
    ring

/-- The base-point routine computes `(n mod 2^256) · G`. -/
theorem baseMul_eq_mod (n : Nat) : baseMul n = ((n % 2 ^ 256 : Nat) : ZMod L) := by
  unfold baseMul
  rw [baseMul_table_sum 32 n]
  norm_num

/-- For a 32-byte scalar buffer the base-point routine computes `n · G`. -/
theorem baseMul_cast (n : Nat) (h : n < 2 ^ 256) : baseMul n = (n : ZMod L) := by
  rw [baseMul_eq_mod, Nat.mod_eq_of_lt h]

/-! ## Ring protocol (one_time.py)

The accumulator buffer `buffer_` of `ring_sign`/`ring_verify` consists of the
message bytes followed by a sequence of 32-byte point encodings; it is
modelled as the message together with the list of appended points (equal
message and equal point lists give bit-identical buffers).  `hash_to_scalar`
applied to the buffer, `hash_to_point`, and `Scalar.random` are external
inputs (SHA3-512 and the CSPRNG), passed as parameters: `Hs` for the buffer
hash, `Hp` for hash-to-point, and `rng k` for the `k`-th value drawn from
`Scalar.random` (drawn in program order). -/

/-- Message bytes. -/
def Msg := List Nat

/-- `PrivateKey.public_key` (one_time.py lines 26-34): `x · G` by the
specialized base-point route (`self.scalar * G`). -/
def public_key (x : Nat) : Point := baseMul x

/-- `PrivateKey.key_image` (one_time.py lines 36-37):
`x · H_p(public_key(x))`. -/
def key_image (Hp : Point → Point) (x : Nat) : Point :=
  ptMul x (Hp (public_key x))

/-- `RingSignature` (one_time.py lines 47-58). -/
structure RingSignature where
  public_keys : List Point
  key_image : Point
  c : List Nat
  r : List Nat
deriving DecidableEq

/-- Python's `list.insert(i, a)`: inserts at position `i`, appending at the
end when `i ≥ len`. -/
def pyInsert : Nat → Nat → List Nat → List Nat
  | 0, a, l => a :: l
  | _ + 1, a, [] => [a]
  | n + 1, a, x :: l => x :: pyInsert n a l

/-- `functools.reduce(operator.add, c)` for nonempty `c` (`0` is never the
value of the empty case, which raises `TypeError` in Python and is handled
at each call site). -/
def redSum : List Nat → Nat
  | [] => 0
  | c0 :: ctl => ctl.foldl scAdd c0

/-- Python's three-list `zip`, truncating to the shortest list. -/
def zip3 : List Point → List Nat → List Nat → List (Point × Nat × Nat)
  | P :: Ps, a :: as', b :: bs => (P, a, b) :: zip3 Ps as' bs
  | _, _, _ => []

/-- The state threaded through the `for i, P_i in enumerate(public_keys)`
loop of `ring_sign` (one_time.py lines 91-104): the partial `c` and `r`
lists, the points appended to the buffer so far, the sampled `q_s` (if the
signer's index was reached), and the number of CSPRNG draws so far. -/
structure SignAcc where
  c : List Nat
  r : List Nat
  pts : List Point
  qs : Option Nat
  k : Nat
deriving DecidableEq

/-- The loop body of `ring_sign`, iterating over the remaining public keys
with `i` the current index (one_time.py lines 93-104). -/
def signLoop (Hp : Point → Point) (I : Point) (s : Nat) (rng : Nat → Nat) :
    List Point → Nat → SignAcc → SignAcc
  | [], _, acc => acc
  | P :: rest, i, acc =>
    if i = s then
      let q := rng acc.k
      signLoop Hp I s rng rest (i + 1)
        ⟨acc.c, acc.r,
         acc.pts ++ [baseMul q, ptMul q (Hp P)], some q, acc.k + 1⟩
    else
      let q := rng acc.k
      let w := rng (acc.k + 1)
      signLoop Hp I s rng rest (i + 1)
        ⟨acc.c ++ [w], acc.r ++ [q],
         acc.pts ++ [ptAdd (baseMul q) (ptMul w P),
                     ptAdd (ptMul q (Hp P)) (ptMul w I)],
         acc.qs, acc.k + 2⟩

/-- `ring_sign` (one_time.py lines 61-108).  Failures of the source are
`none`: `functools.reduce` of an empty `c` raises `TypeError` (the ring has
only the signer's key), and `q_s` is unbound (`NameError`) when
`key_index ≥ len(public_keys)`. -/
def ring_sign (Hs : Msg → List Point → Nat) (Hp : Point → Point)
    (rng : Nat → Nat) (message : Msg) (public_keys : List Point)
    (x s : Nat) : Option RingSignature :=
  let I := key_image Hp x
  let acc := signLoop Hp I s rng public_keys 0 ⟨[], [], [], none, 0⟩
  match acc.c, acc.qs with
  | [], _ => none
  | _ :: _, none => none
  | c0 :: ctl, some qs =>
    let cs := scSub (Hs message acc.pts) (ctl.foldl scAdd c0)
    let c := pyInsert s cs (c0 :: ctl)
    let rs := scSub qs (scMul (c.getD s 0) x)
    some ⟨public_keys, I, c, pyInsert s rs acc.r⟩

/-- The two points appended to the verifier's buffer for one ring position
`(P_i, r_i, c_i)` (one_time.py lines 127-128). -/
def vStep (Hp : Point → Point) (I : Point) (t : Point × Nat × Nat) :
    List Point :=
  [ptAdd (baseMul t.2.1) (ptMul t.2.2 t.1),
   ptAdd (ptMul t.2.1 (Hp t.1)) (ptMul t.2.2 I)]

/-- `ring_verify` (one_time.py lines 111-130).  `zip` truncates to the
shortest of the three lists; the final subtraction uses the whole `c` list;
`functools.reduce` of an empty `c` raises `TypeError` (`none`). -/
def ring_verify (Hs : Msg → List Point → Nat) (Hp : Point → Point)
    (message : Msg) (sig : RingSignature) : Option Bool :=
  let pts := (zip3 sig.public_keys sig.r sig.c).flatMap
    (vStep Hp sig.key_image)
  match sig.c with
  | [] => none
  | c0 :: ctl =>
    some (decide (scSub (Hs message pts) (ctl.foldl scAdd c0) = 0))

/-! ### Closed form of the signing loop -/

/-- The `w_i` drawn on a run of non-signer iterations starting at draw
counter `k`. -/
def segC (rng : Nat → Nat) (k : Nat) : List Point → List Nat
  | [] => []
  | _ :: rest => rng (k + 1) :: segC rng (k + 2) rest

/-- The `q_i` drawn on a run of non-signer iterations starting at draw
counter `k`. -/
def segR (rng : Nat → Nat) (k : Nat) : List Point → List Nat
  | [] => []
  | _ :: rest => rng k :: segR rng (k + 2) rest

/-- The buffer points appended on a run of non-signer iterations starting at
draw counter `k`. -/
def segPts (Hp : Point → Point) (I : Point) (rng : Nat → Nat) (k : Nat) :
    List Point → List Point
  | [] => []
  | P :: rest =>
    ptAdd (baseMul (rng k)) (ptMul (rng (k + 1)) P)
      :: ptAdd (ptMul (rng k) (Hp P)) (ptMul (rng (k + 1)) I)
      :: segPts Hp I rng (k + 2) rest

theorem segC_length (rng : Nat → Nat) (k : Nat) (l : List Point) :
    (segC rng k l).length = l.length := by
  induction l generalizing k with
  | nil => rfl
  | cons P rest ih => simp [segC, ih]

theorem segR_length (rng : Nat → Nat) (k : Nat) (l : List Point) :
    (segR rng k l).length = l.length := by
  induction l generalizing k with
  | nil => rfl
  | cons P rest ih => simp [segR, ih]

theorem signLoop_append (Hp : Point → Point) (I : Point) (s : Nat)
    (rng : Nat → Nat) (l₁ l₂ : List Point) (i : Nat) (acc : SignAcc) :
    signLoop Hp I s rng (l₁ ++ l₂) i acc
      = signLoop Hp I s rng l₂ (i + l₁.length) (signLoop Hp I s rng l₁ i acc) := by
  induction l₁ generalizing i acc with
  | nil => simp [signLoop]
  | cons P rest ih =>
    have hidx : i + (P :: rest).length = (i + 1) + rest.length := by
      rw [List.length_cons]; omega
    simp only [List.cons_append, signLoop]
    split
    · rw [hidx, ← ih]; rfl
    · rw [hidx, ← ih]; rfl

/-- A run of the loop whose indices all differ from the signer's index. -/
theorem signLoop_else (Hp : Point → Point) (I : Point) (s : Nat)
    (rng : Nat → Nat) (l : List Point) (i : Nat) (acc : SignAcc)
    (h : ∀ j, j < l.length → i + j ≠ s) :
    signLoop Hp I s rng l i acc
      = ⟨acc.c ++ segC rng acc.k l, acc.r ++ segR rng acc.k l,
         acc.pts ++ segPts Hp I rng acc.k l, acc.qs, acc.k + 2 * l.length⟩ := by
  induction l generalizing i acc with
  | nil => simp [signLoop, segC, segR, segPts]
  | cons P rest ih =>
    have hi : i ≠ s := by
      have := h 0 (by simp)
      simpa using this
    have h' : ∀ j, j < rest.length → (i + 1) + j ≠ s := by
      intro j hj
      have := h (j + 1) (by simp only [List.length_cons]; omega)
      omega
    simp only [signLoop, if_neg hi]
    rw [ih _ _ h']
    simp only [segC, segR, segPts, List.length_cons, List.append_assoc,
      List.singleton_append, List.cons_append, List.nil_append,
      SignAcc.mk.injEq, and_true, true_and]
    all_goals omega

theorem pyInsert_at_length (A B : List Nat) (v : Nat) :
    pyInsert A.length v (A ++ B) = A ++ v :: B := by
  induction A with
  | nil => rfl
  | cons a A ih => simp [pyInsert, ih]

theorem getD_append_at_length (A B : List Nat) (v : Nat) :
    (A ++ v :: B).getD A.length 0 = v := by
  induction A with
  | nil => rfl
  | cons a A ih => simpa using ih

theorem zip3_append (A1 B1 : List Point) (A2 B2 A3 B3 : List Nat)
    (h12 : A1.length = A2.length) (h13 : A1.length = A3.length) :
    zip3 (A1 ++ B1) (A2 ++ B2) (A3 ++ B3)
      = zip3 A1 A2 A3 ++ zip3 B1 B2 B3 := by
  induction A1 generalizing A2 A3 with
  | nil =>
    cases A2 with
    | nil =>
      cases A3 with
      | nil => rfl
      | cons _ _ => simp at h13
    | cons _ _ => simp at h12
  | cons P A1 ih =>
    cases A2 with
    | nil => simp at h12
    | cons a A2 =>
      cases A3 with
      | nil => simp at h13
      | cons b A3 =>
        simp only [List.cons_append, zip3, List.length_cons, List.append_eq] at *
        rw [ih A2 A3 (by omega) (by omega)]

/-- `flatMap` of the verifier's step over a run of non-signer positions
reconstructs exactly the points the signer appended on that run. -/
theorem zip3_seg_flatMap (Hp : Point → Point) (I : Point) (rng : Nat → Nat)
    (k : Nat) (l : List Point) :
    (zip3 l (segR rng k l) (segC rng k l)).flatMap (vStep Hp I)
      = segPts Hp I rng k l := by
  induction l generalizing k with
  | nil => rfl
  | cons P rest ih =>
    simp only [segR, segC, segPts, zip3, List.flatMap_cons, vStep]
    rw [ih]
    rfl

/-- Folding `scAdd` over a list computes the sum of the list modulo `L`
(as an element of `ZMod L`). -/
theorem foldl_scAdd_cast (t : List Nat) (h : Nat) :
    ((t.foldl scAdd h : Nat) : ZMod L) = (h : ZMod L) + (t.sum : Nat) := by
  induction t generalizing h with
  | nil => simp
  | cons a t ih =>
    simp only [List.foldl_cons, List.sum_cons]
    rw [ih, scAdd_cast]
    push_cast
    ring

theorem redSum_cast (l : List Nat) :
    ((redSum l : Nat) : ZMod L) = ((l.sum : Nat) : ZMod L) := by
  cases l with
  | nil => rfl
  | cons c0 ctl =>
    simp only [redSum, List.sum_cons]
    rw [foldl_scAdd_cast]
    push_cast
    ring

/-- Closed form of the full signing loop when the signer's index is in
range: the loop walks the keys before `s` (two draws each), the signer's key
(one draw), and the keys after `s` (two draws each). -/
theorem signLoop_closed (Hp : Point → Point) (I : Point) (rng : Nat → Nat)
    (pks : List Point) (s : Nat) (hs : s < pks.length) :
    signLoop Hp I s rng pks 0 ⟨[], [], [], none, 0⟩
      = ⟨segC rng 0 (pks.take s) ++ segC rng (2 * s + 1) (pks.drop (s + 1)),
         segR rng 0 (pks.take s) ++ segR rng (2 * s + 1) (pks.drop (s + 1)),
         (segPts Hp I rng 0 (pks.take s)
           ++ [baseMul (rng (2 * s)),
               ptMul (rng (2 * s)) (Hp (pks.get ⟨s, hs⟩))])
           ++ segPts Hp I rng (2 * s + 1) (pks.drop (s + 1)),
         some (rng (2 * s)),
         2 * s + 1 + 2 * (pks.length - (s + 1))⟩ := by
  have hpre : (pks.take s).length = s := by
    rw [List.length_take]; omega
  have hsplit : pks = pks.take s ++ pks.get ⟨s, hs⟩ :: pks.drop (s + 1) := by
    conv_lhs => rw [← List.take_append_drop s pks]
    congr 1
    rw [List.drop_eq_getElem_cons hs, List.get_eq_getElem]
  conv_lhs => rw [hsplit]
  rw [signLoop_append,
    signLoop_else Hp I s rng (pks.take s) 0 _
      (by intro j hj; rw [hpre] at hj; omega)]
  simp only [hpre, Nat.zero_add, List.nil_append, signLoop, eq_self_iff_true,
    if_true]
  rw [signLoop_else Hp I s rng (pks.drop (s + 1)) (s + 1) _
    (by intro j hj; omega)]
  simp only [List.length_drop, List.nil_append]

/-- Evaluation of `ring_sign` when the loop produced a nonempty `c` and a
sampled `q_s` (the success path of one_time.py lines 105-108). -/
theorem ring_sign_eq_of (Hs : Msg → List Point → Nat) (Hp : Point → Point)
    (rng : Nat → Nat) (m : Msg) (pks : List Point) (x s : Nat)
    (acc : SignAcc) (q : Nat)
    (hacc : signLoop Hp (key_image Hp x) s rng pks 0 ⟨[], [], [], none, 0⟩ = acc)
    (hc : acc.c ≠ []) (hq : acc.qs = some q) :
    ring_sign Hs Hp rng m pks x s
      = some ⟨pks, key_image Hp x,
          pyInsert s (scSub (Hs m acc.pts) (redSum acc.c)) acc.c,
          pyInsert s
            (scSub q (scMul
              ((pyInsert s (scSub (Hs m acc.pts) (redSum acc.c)) acc.c).getD s 0)
              x))
            acc.r⟩ := by
  obtain ⟨cl, rl, pts, qs, k⟩ := acc
  simp only [ring_sign, hacc]
  cases cl with
  | nil => exact absurd rfl hc
  | cons c0 ctl =>
    simp only at hq
    subst hq
    rfl

/-- Evaluation of `ring_verify` when `c` is nonempty (one_time.py line 130). -/
theorem ring_verify_eq_of (Hs : Msg → List Point → Nat) (Hp : Point → Point)
    (m : Msg) (sig : RingSignature) (hc : sig.c ≠ []) :
    ring_verify Hs Hp m sig
      = some (decide (scSub
          (Hs m ((zip3 sig.public_keys sig.r sig.c).flatMap
            (vStep Hp sig.key_image)))
          (redSum sig.c) = 0)) := by
  obtain ⟨pk, ki, c, r⟩ := sig
  simp only [ring_verify]
  cases c with
  | nil => exact absurd rfl hc
  | cons c0 ctl => rfl

/-- C1: for every message, every ring of public points, every 32-byte secret
scalar whose public key `x·G` sits at the in-range signer index, and every
CSPRNG stream of canonical nonzero scalars, any signature produced by
`ring_sign` satisfies `ring_verify`. -/
theorem ring_sign_verify_roundtrip
    (Hs : Msg → List Point → Nat) (Hp : Point → Point) (rng : Nat → Nat)
    (m : Msg) (pks : List Point) (x s : Nat)
    (hx : x < 2 ^ 256)
    (hrng : ∀ k, 0 < rng k ∧ rng k < L)
    (hs : s < pks.length)
    (hP : pks.get ⟨s, hs⟩ = baseMul x)
    (sig : RingSignature)
    (hsig : ring_sign Hs Hp rng m pks x s = some sig) :
    ring_verify Hs Hp m sig = some true := by
  have hpreLen : (pks.take s).length = s := by rw [List.length_take]; omega
  have hsplit : pks = pks.take s ++ pks.get ⟨s, hs⟩ :: pks.drop (s + 1) := by
    conv_lhs => rw [← List.take_append_drop s pks]
    congr 1
    rw [List.drop_eq_getElem_cons hs, List.get_eq_getElem]
  have hacc := signLoop_closed Hp (key_image Hp x) rng pks s hs
  set I := key_image Hp x with hI
  set q := rng (2 * s) with hqdef
  set Ps := pks.get ⟨s, hs⟩ with hPsdef
  set cA := segC rng 0 (pks.take s) with hcA
  set cB := segC rng (2 * s + 1) (pks.drop (s + 1)) with hcB
  set rA := segR rng 0 (pks.take s) with hrA
  set rB := segR rng (2 * s + 1) (pks.drop (s + 1)) with hrB
  set ptsA := segPts Hp I rng 0 (pks.take s) with hptsA
  set ptsB := segPts Hp I rng (2 * s + 1) (pks.drop (s + 1)) with hptsB
  have hcAlen : cA.length = s := by rw [hcA, segC_length, hpreLen]
  have hrAlen : rA.length = s := by rw [hrA, segR_length, hpreLen]
  by_cases hemp : cA ++ cB = []
  · exfalso
    have hnone : ring_sign Hs Hp rng m pks x s = none := by
      simp only [ring_sign, hacc, hemp]
    rw [hnone] at hsig
    exact Option.noConfusion hsig
  · have hsig2 := ring_sign_eq_of Hs Hp rng m pks x s _ q hacc hemp rfl
    dsimp only at hsig2
    rw [hsig2] at hsig
    have hsigval := Option.some.inj hsig
    subst hsigval
    -- name the inserted challenge and response
    set cs := scSub (Hs m (ptsA ++ [baseMul q, ptMul q (Hp Ps)] ++ ptsB))
      (redSum (cA ++ cB)) with hcs
    set rs := scSub q (scMul ((pyInsert s cs (cA ++ cB)).getD s 0) x) with hrs
    have hcF : pyInsert s cs (cA ++ cB) = cA ++ cs :: cB := by
      conv_lhs => rw [← hcAlen]
      exact pyInsert_at_length cA cB cs
    have hrF : pyInsert s rs (rA ++ rB) = rA ++ rs :: rB := by
      conv_lhs => rw [← hrAlen]
      exact pyInsert_at_length rA rB rs
    have hgetD : (pyInsert s cs (cA ++ cB)).getD s 0 = cs := by
      rw [hcF]
      conv_lhs => rw [← hcAlen]
      exact getD_append_at_length cA cB cs
    -- the verifier's buffer equals the signer's buffer
    have hq_lt : q < 2 ^ 256 := lt_trans (hrng (2 * s)).2 L_lt_two_pow
    have hrs_lt : rs < 2 ^ 256 := lt_trans (scSub_lt _ _) L_lt_two_pow
    have hPsx : Ps = (x : ZMod L) := by rw [hP, baseMul_cast x hx]
    have hIx : I = (x : ZMod L) * Hp Ps := by
      rw [hI, hP]
      rfl
    have hrs_cast : ((rs : Nat) : ZMod L) = (q : ZMod L) - (cs : ZMod L) * x := by
      rw [hrs, hgetD, scSub_cast, scMul_cast]
    have hmid : vStep Hp I (Ps, rs, cs) = [baseMul q, ptMul q (Hp Ps)] := by
      simp only [vStep, ptAdd, ptMul, baseMul_cast rs hrs_lt, baseMul_cast q hq_lt]
      congr 1
      · rw [hrs_cast]
        conv_lhs => rw [hPsx]
        ring
      · congr 1
        rw [hrs_cast, hIx]
        ring
    have hverify := ring_verify_eq_of Hs Hp m
      ⟨pks, I, pyInsert s cs (cA ++ cB), pyInsert s rs (rA ++ rB)⟩
      (by rw [hcF]; simp)
    dsimp only at hverify
    rw [hverify, hcF, hrF]
    -- split the zipped triples around the signer's position
    have hz : zip3 pks (rA ++ rs :: rB) (cA ++ cs :: cB)
        = zip3 (pks.take s) rA cA
          ++ (Ps, rs, cs) :: zip3 (pks.drop (s + 1)) rB cB := by
      conv_lhs => rw [hsplit]
      rw [zip3_append _ _ _ _ _ _ (by omega) (by omega)]
      rfl
    rw [hz, List.flatMap_append, List.flatMap_cons, hcA, hrA, hcB, hrB,
      zip3_seg_flatMap, zip3_seg_flatMap, hmid]
    rw [← hcA, ← hcB]
    -- the final check holds
    have hzero : scSub
        (Hs m (ptsA ++ ([baseMul q, ptMul q (Hp Ps)] ++ ptsB)))
        (redSum (cA ++ cs :: cB)) = 0 := by
      rw [← List.append_assoc]
      rw [scSub_eq_zero_iff]
      rw [redSum_cast, List.sum_append, List.sum_cons]
      push_cast
      rw [scSub_cast, redSum_cast]
      push_cast [List.sum_append]
      ring
    rw [hzero]
    rfl

theorem one_lt_L : 1 < L := by decide

/-- Witness for C1: a concrete two-key ring signed at index 0 with secret 1;
the produced signature and its successful verification, obtained by applying
the round-trip theorem. -/
theorem ring_sign_verify_roundtrip_witness :
    ring_sign (fun _ _ => 0) (fun _ => (0 : Point)) (fun _ => 1) []
        [baseMul 1, 0] 1 0
      = some ⟨[baseMul 1, 0], 0, [L - 1, 1], [2, 1]⟩
    ∧ ring_verify (fun _ _ => 0) (fun _ => (0 : Point)) []
        ⟨[baseMul 1, 0], 0, [L - 1, 1], [2, 1]⟩ = some true :=
  ⟨by decide,
   ring_sign_verify_roundtrip (fun _ _ => 0) (fun _ => (0 : Point)) (fun _ => 1)
     [] [baseMul 1, 0] 1 0 (by decide) (fun _ => ⟨Nat.one_pos, one_lt_L⟩)
     (by decide) rfl ⟨[baseMul 1, 0], 0, [L - 1, 1], [2, 1]⟩ (by decide)⟩

/-- C2 (evaluation of the code at the failing input): on a ring of exactly
one public key with the matching secret `1` at index `0`, `ring_sign` fails
(`functools.reduce(operator.add, c)` is called on the empty list `c`, as the
only iteration takes the signer branch, raising `TypeError`): the model
returns `none` instead of a `RingSignature`. -/
theorem ring_sign_singleton_ring_fails :
    ring_sign (fun _ _ => 0) (fun _ => (0 : Point)) (fun _ => 1) []
      [baseMul 1] 1 0 = none := by decide

/-- C3 (evaluation of the code at the failing input): `Scalar(1) / Scalar(0)`
returns `Scalar(0)` — `sc25519_invert` writes `0^(L-2) mod L = 0` into the
output buffer and the `-1` error return of
`crypto_core_ed25519_scalar_invert` is never checked by
`Scalar.__truediv__` — so dividing by the zero scalar returns a `Scalar`
rather than raising `ArithmeticError`. -/
theorem div_by_zero_returns_scalar : scDiv 1 0 = 0 := by
  set_option maxRecDepth 4000 in decide

/-- C9: multiplying the `Generator` constant by a 32-byte scalar through the
specialized precomputed-table base-point routine yields the same point as
generic scalar multiplication of the `Point` built from `G`'s encoding
(`Point(G.data)` is the same subgroup element, `Gpt`). -/
theorem base_mul_matches_generic (n : Nat) (h : n < 2 ^ 256) :
    baseMul n = ptMul n Gpt := by
  rw [baseMul_cast n h, ptMul, Gpt, mul_one]

/-- Witness for C9 at the concrete scalar `5`. -/
theorem base_mul_matches_generic_witness :
    (5 : Nat) < 2 ^ 256 ∧ baseMul 5 = ptMul 5 Gpt :=
  ⟨by decide, base_mul_matches_generic 5 (by decide)⟩

theorem zip3_nil_left (bs cs : List Nat) : zip3 [] bs cs = [] := by
  cases bs <;> cases cs <;> rfl

theorem zip3_nil_mid (as : List Point) (cs : List Nat) : zip3 as [] cs = [] := by
  cases as <;> cases cs <;> rfl

theorem zip3_nil_right (as : List Point) (bs : List Nat) : zip3 as bs [] = [] := by
  cases as <;> cases bs <;> rfl

/-- Python's `zip` truncates all three lists to the shortest length. -/
theorem zip3_eq_take (as : List Point) (bs cs : List Nat) :
    zip3 as bs cs
      = zip3 (as.take (min as.length (min bs.length cs.length)))
             (bs.take (min as.length (min bs.length cs.length)))
             (cs.take (min as.length (min bs.length cs.length))) := by
  induction as generalizing bs cs with
  | nil => simp [zip3_nil_left]
  | cons a as ih =>
    cases bs with
    | nil => simp [zip3_nil_mid]
    | cons b bs =>
      cases cs with
      | nil => simp [zip3_nil_right]
      | cons c cs =>
        simp only [zip3, List.length_cons, Nat.succ_min_succ, List.take_succ_cons]
        rw [← ih]

/-- C10: on any message and any `RingSignature` whose `c` list is nonempty
but whose list lengths mismatch, `ring_verify` raises no size error: it
returns a boolean computed by hashing only the first
`min(|public_keys|, |r|, |c|)` ring positions (`zip` truncation) while
subtracting the fold of the entire `c` list. -/
theorem ring_verify_truncates (Hs : Msg → List Point → Nat)
    (Hp : Point → Point) (m : Msg) (sig : RingSignature)
    (hc : sig.c ≠ [])
    (_hmis : sig.public_keys.length ≠ sig.c.length
      ∨ sig.r.length ≠ sig.c.length)
    (k : Nat)
    (hk : k = min sig.public_keys.length (min sig.r.length sig.c.length)) :
    ring_verify Hs Hp m sig
      = some (decide (scSub
          (Hs m ((zip3 (sig.public_keys.take k) (sig.r.take k)
            (sig.c.take k)).flatMap (vStep Hp sig.key_image)))
          (redSum sig.c) = 0)) := by
  subst hk
  rw [ring_verify_eq_of Hs Hp m sig hc, zip3_eq_take]

/-- Witness for C10: an empty key list against one challenge and one
response; the verifier hashes nothing, subtracts `c[0] = 5`, and returns
`false`. -/
theorem ring_verify_truncates_witness :
    ring_verify (fun _ _ => 0) (fun _ => (0 : Point)) []
      ⟨[], 0, [5], [7]⟩ = some false :=
  (ring_verify_truncates (fun _ _ => 0) (fun _ => (0 : Point)) []
    ⟨[], 0, [5], [7]⟩ (by decide) (Or.inl (by decide)) 0 rfl).trans (by decide)

/-- The key image recorded in any signature `ring_sign` produces is
`key_image(x)`, independent of message, ring, hash, and randomness. -/
theorem ring_sign_key_image_eq (Hs : Msg → List Point → Nat)
    (Hp : Point → Point) (rng : Nat → Nat) (m : Msg) (pks : List Point)
    (x s : Nat) (sig : RingSignature)
    (h : ring_sign Hs Hp rng m pks x s = some sig) :
    sig.key_image = key_image Hp x := by
  simp only [ring_sign] at h
  split at h
  · exact absurd h (by simp)
  · exact absurd h (by simp)
  · rw [← Option.some.inj h]

/-- C7: the key image equals `x·H_p(x·G)` (a pure function of the secret
scalar `x`), and any two signatures produced with the same secret — over any
rings, messages and randomness — carry equal key images. -/
theorem key_image_deterministic
    (Hs1 Hs2 : Msg → List Point → Nat) (Hp : Point → Point)
    (rng1 rng2 : Nat → Nat) (m1 m2 : Msg) (pks1 pks2 : List Point)
    (x s1 s2 : Nat) (sig1 sig2 : RingSignature)
    (h1 : ring_sign Hs1 Hp rng1 m1 pks1 x s1 = some sig1)
    (h2 : ring_sign Hs2 Hp rng2 m2 pks2 x s2 = some sig2) :
    sig1.key_image = sig2.key_image
      ∧ sig1.key_image = ptMul x (Hp (public_key x)) :=
  ⟨(ring_sign_key_image_eq Hs1 Hp rng1 m1 pks1 x s1 sig1 h1).trans
      (ring_sign_key_image_eq Hs2 Hp rng2 m2 pks2 x s2 sig2 h2).symm,
    ring_sign_key_image_eq Hs1 Hp rng1 m1 pks1 x s1 sig1 h1⟩

/-- Witness for C7: two signatures with secret `1` over different rings and
messages carry the same key image. -/
theorem key_image_deterministic_witness :
    (⟨[0, 0], 0, [L - 1, 1], [2, 1]⟩ : RingSignature).key_image
        = (⟨[0, 0, 0], 0, [1, L - 2, 1], [1, 3, 1]⟩ : RingSignature).key_image
    ∧ (⟨[0, 0], 0, [L - 1, 1], [2, 1]⟩ : RingSignature).key_image
        = ptMul 1 ((fun _ => (0 : Point)) (public_key 1)) :=
  key_image_deterministic (fun _ _ => 0) (fun _ _ => 0) (fun _ => (0 : Point))
    (fun _ => 1) (fun _ => 1) [] [3] [0, 0] [0, 0, 0] 1 0 1
    ⟨[0, 0], 0, [L - 1, 1], [2, 1]⟩ ⟨[0, 0, 0], 0, [1, L - 2, 1], [1, 3, 1]⟩
    (by decide) (by decide)

/-! ## hash_to_scalar (ge.py lines 160-172)

`hash_to_scalar(data)` computes a digest of `data` with a configurable hash
(default SHA3-512) and reduces its little-endian integer value modulo `Q`.
The digest function is an external input `H`. -/

/-- `hash_to_scalar` (ge.py lines 160-172): the little-endian integer value
of the digest, reduced modulo `Q` (the field prime, not the subgroup
order `L`). -/
def hash_to_scalar (H : List Nat → List Nat) (data : List Nat) : Nat :=
  fromLE (H data) % Q

theorem fromLE_leBytes (k n : Nat) : fromLE (leBytes k n) = n % 256 ^ k := by
  induction k generalizing n with
  | zero => simp [leBytes, fromLE, Nat.mod_one]
  | succ k ih =>
    simp only [leBytes, fromLE]
    rw [ih]
    have h1 : n % (256 * 256 ^ k) / 256 = n / 256 % 256 ^ k :=
      Nat.mod_mul_right_div_self n 256 (256 ^ k)
    have h2 : n % (256 * 256 ^ k) % 256 = n % 256 :=
      Nat.mod_mod_of_dvd n (Dvd.intro (256 ^ k) rfl)
    have h3 : 256 ^ (k + 1) = 256 * 256 ^ k := by ring
    calc n % 256 + 256 * (n / 256 % 256 ^ k)
        = 256 * (n % (256 * 256 ^ k) / 256) + n % (256 * 256 ^ k) % 256 := by
          rw [h1, h2]; omega
      _ = n % (256 * 256 ^ k) := Nat.div_add_mod _ _
      _ = n % 256 ^ (k + 1) := by rw [h3]

/-- C5: for every digest function and every byte string, `hash_to_scalar`
equals the little-endian integer value of the digest reduced modulo
`Q = 2^255 - 19`, lies in `[0, Q)`, and `Q` is not the subgroup order `L`:
the value `L` itself (encoded as a 64-byte digest) reduces to `L`, outside
`[0, L)`. -/
theorem hash_to_scalar_mod_Q :
    (∀ H data, hash_to_scalar H data = fromLE (H data) % Q)
    ∧ (∀ H data, hash_to_scalar H data < Q)
    ∧ L < Q
    ∧ hash_to_scalar (fun _ => leBytes 64 L) [] = L := by
  refine ⟨fun H data => rfl, fun H data => Nat.mod_lt _ Q_pos, by decide, ?_⟩
  show fromLE (leBytes 64 L) % Q = L
  rw [fromLE_leBytes]
  decide

/-- `Scalar.__init__` from 32 raw bytes (sc25519.py lines 52-66): the bytes
are stored as-is, without reduction; any other length raises `ValueError`. -/
def scalarFromBytes (b : List Nat) : Option Nat :=
  if b.length = 32 then some (fromLE b) else none

/-- C8: every scalar produced by an arithmetic operation (add, sub, mul,
neg, div, 64-byte reduction) is canonical (< L); construction from an
integer or from 32 raw bytes stores the value unreduced, so `Scalar(L+1)`
holds the non-canonical value `L+1`, yet `Scalar(L+1) + 0 == Scalar(1)`. -/
theorem scalar_arithmetic_canonical :
    (∀ a b, scAdd a b < L) ∧ (∀ a b, scSub a b < L) ∧ (∀ a b, scMul a b < L)
    ∧ (∀ a, scNeg a < L) ∧ (∀ a b, scDiv a b < L) ∧ (∀ n, scReduce n < L)
    ∧ scalarFromInt (L + 1) = some (L + 1)
    ∧ scalarFromBytes (leBytes 32 (L + 1)) = some (L + 1)
    ∧ L < L + 1
    ∧ scAdd (L + 1) 0 = 1 := by
  refine ⟨scAdd_lt, scSub_lt, scMul_lt, scNeg_lt, scDiv_lt, scReduce_lt,
    by decide, ?_, by omega, by decide⟩
  show scalarFromBytes (leBytes 32 (L + 1)) = some (L + 1)
  rw [scalarFromBytes]
  rw [if_pos (by decide)]
  rw [fromLE_leBytes]
  decide

/-! ## Serialization (serialize.py)

Modelled from the spec: pyasn1's DER codec and the base64/PEM armor (both
external libraries, not part of src/) form a bijection between decoded
ASN.1 values and armored strings — DER is canonical, and `import_pem`
strips exactly the armor `export_pem` adds before decoding and rejects any
remainder.  The transport is therefore modelled as the identity on decoded
values, and export/import are embedded as functions between the
`RingSignature` byte view and the decoded ASN.1 value.  Field extraction,
the object-identifier comparison, and the 32-byte constructor checks are
embedded from serialize.py lines 58-82. -/

/-- The object identifier of the schema (serialize.py lines 19-20): the arc
`{2 25}` followed by the 16 bytes of UUID
`3b5e61af-c4ec-496e-95e9-4b64bccdc809` as individual sub-identifiers. -/
def objectId : List Nat :=
  [2, 25, 0x3b, 0x5e, 0x61, 0xaf, 0xc4, 0xec, 0x49, 0x6e,
   0x95, 0xe9, 0x4b, 0x64, 0xbc, 0xcd, 0xc8, 0x09]

/-- A decoded ring-signature DER body (the five fields of
`RingSignatureSchema` in schema order; pyasn1's untyped decoder exposes them
as `field-0` … `field-4`). -/
structure Asn1Sig where
  algorithm : List Nat
  key_image : List Nat
  public_keys : List (List Nat)
  c : List (List Nat)
  r : List (List Nat)
deriving DecidableEq

/-- A `RingSignature` as serialize.py sees it: the raw 32-byte buffers
`Point.data` / `Scalar.data` of each component. -/
structure RingSignatureB where
  public_keys : List (List Nat)
  key_image : List Nat
  c : List (List Nat)
  r : List (List Nat)
deriving DecidableEq

/-- `export_pem` (serialize.py lines 39-55) up to the invertible transport:
the dict passed to the native decoder is keyed by component name, so the
DER sequence carries (algorithm = the fixed OID filled in by the schema
default, key_image, public_keys, c, r) in schema order. -/
def export_pem_value (sig : RingSignatureB) : Asn1Sig :=
  ⟨objectId, sig.key_image, sig.public_keys, sig.c, sig.r⟩

/-- The `Point(bytes)` / `Scalar(bytes)` constructor as used on decoded
octet strings: exactly 32 bytes, else `ValueError`. -/
def bytes32 (b : List Nat) : Option (List Nat) :=
  if b.length = 32 then some b else none

/-- A fallible constructor mapped over a list comprehension: the first
failure propagates (raises). -/
def mapO (f : List Nat → Option (List Nat)) :
    List (List Nat) → Option (List (List Nat))
  | [] => some []
  | b :: rest =>
    match f b, mapO f rest with
    | some v, some vs => some (v :: vs)
    | _, _ => none

/-- `import_pem` (serialize.py lines 58-82) after the armor strip and DER
decode: reject a wrong object identifier, then rebuild the key image, the
public keys, `c` and `r` from the octet strings (each must be 32 bytes).
No check compares the lengths of `public_keys`, `c` and `r`. -/
def import_pem_value (a : Asn1Sig) : Option RingSignatureB :=
  if a.algorithm ≠ objectId then none
  else
    match bytes32 a.key_image with
    | none => none
    | some ki =>
      match mapO bytes32 a.public_keys with
      | none => none
      | some pks =>
        match mapO bytes32 a.c with
        | none => none
        | some cs =>
          match mapO bytes32 a.r with
          | none => none
          | some rs => some ⟨pks, ki, cs, rs⟩

theorem mapO_all32 (l : List (List Nat)) (h : ∀ b ∈ l, b.length = 32) :
    mapO bytes32 l = some l := by
  induction l with
  | nil => rfl
  | cons b rest ih =>
    simp only [mapO]
    rw [ih (fun x hx => h x (List.mem_cons_of_mem b hx))]
    rw [bytes32, if_pos (h b (List.mem_cons_self b rest))]

theorem mapO_mem_fail (l : List (List Nat)) (b : List Nat) (hb : b ∈ l)
    (h : b.length ≠ 32) : mapO bytes32 l = none := by
  induction l with
  | nil => exact absurd hb (List.not_mem_nil b)
  | cons x rest ih =>
    rcases List.mem_cons.mp hb with rfl | hmem
    · simp only [mapO, bytes32, if_neg h]
    · simp only [mapO, ih hmem]
      cases bytes32 x <;> rfl

theorem mapO_some_eq (l l' : List (List Nat)) (h : mapO bytes32 l = some l') :
    l' = l := by
  induction l generalizing l' with
  | nil => simpa [mapO] using h.symm
  | cons x rest ih =>
    simp only [mapO] at h
    rcases hx : bytes32 x with _ | v
    · rw [hx] at h; exact absurd h (by simp)
    · rcases hrest : mapO bytes32 rest with _ | vs
      · rw [hx, hrest] at h; exact absurd h (by simp)
      · rw [hx, hrest] at h
        have hv : v = x := by
          rw [bytes32] at hx
          split at hx
          · exact (Option.some.inj hx).symm
          · exact absurd hx (by simp)
        rw [← Option.some.inj h, hv, ih vs hrest]

/-- C6: for every structurally valid signature (all byte buffers 32 bytes,
list lengths matching), importing the exported value returns the signature
unchanged, field by field. -/
theorem export_import_roundtrip (sig : RingSignatureB)
    (hki : sig.key_image.length = 32)
    (hpk : ∀ b ∈ sig.public_keys, b.length = 32)
    (hc : ∀ b ∈ sig.c, b.length = 32)
    (hr : ∀ b ∈ sig.r, b.length = 32)
    (hlen : sig.c.length = sig.r.length
      ∧ sig.c.length = sig.public_keys.length) :
    import_pem_value (export_pem_value sig) = some sig := by
  obtain ⟨pks, ki, cs, rs⟩ := sig
  simp only [export_pem_value, import_pem_value, ite_not, if_true]
  simp only at hki hpk hc hr
  rw [bytes32, if_pos hki, mapO_all32 pks hpk, mapO_all32 cs hc,
    mapO_all32 rs hr]

/-- Witness for C6: a concrete one-key signature round-trips. -/
theorem export_import_roundtrip_witness :
    import_pem_value (export_pem_value
        ⟨[List.replicate 32 1], List.replicate 32 2,
         [List.replicate 32 3], [List.replicate 32 4]⟩)
      = some ⟨[List.replicate 32 1], List.replicate 32 2,
          [List.replicate 32 3], [List.replicate 32 4]⟩ :=
  export_import_roundtrip
    ⟨[List.replicate 32 1], List.replicate 32 2,
     [List.replicate 32 3], [List.replicate 32 4]⟩
    (by decide) (by decide) (by decide) (by decide) ⟨by decide, by decide⟩

/-- C4 counterexample: a decoded body with the correct OID, every octet
string exactly 32 bytes, no public keys, but one `c` and one `r`, is
accepted — the claim that mismatched list lengths are rejected is false: a
`RingSignature` with `|public_keys| = 0 ≠ 1 = |c|` is returned. -/
theorem import_pem_accepts_mismatched_lengths :
    import_pem_value
        ⟨objectId, List.replicate 32 0, [], [List.replicate 32 1],
         [List.replicate 32 2]⟩
      = some ⟨[], List.replicate 32 0, [List.replicate 32 1],
          [List.replicate 32 2]⟩
    ∧ ([] : List (List Nat)).length = 0
    ∧ [List.replicate 32 1].length = 1 := by
  refine ⟨rfl, rfl, rfl⟩

/-- C4 (amended): `import_pem` raises on any octet string whose length is
not 32 in any of the four fields; but it never compares the lengths of
`public_keys`, `c` and `r`: on success it returns exactly the decoded
lists, mismatched or not. -/
theorem import_pem_rejects_non32 :
    (∀ a : Asn1Sig, a.key_image.length ≠ 32 → import_pem_value a = none)
    ∧ (∀ (a : Asn1Sig) b, b ∈ a.public_keys → b.length ≠ 32 →
        import_pem_value a = none)
    ∧ (∀ (a : Asn1Sig) b, b ∈ a.c → b.length ≠ 32 →
        import_pem_value a = none)
    ∧ (∀ (a : Asn1Sig) b, b ∈ a.r → b.length ≠ 32 →
        import_pem_value a = none)
    ∧ (∀ (a : Asn1Sig) sig, import_pem_value a = some sig →
        sig.public_keys = a.public_keys ∧ sig.c = a.c ∧ sig.r = a.r) := by
  refine ⟨?_, ?_, ?_, ?_, ?_⟩
  · intro a h
    simp only [import_pem_value]
    split
    · rfl
    · rw [bytes32, if_neg h]
  · intro a b hb h
    simp only [import_pem_value]
    split
    · rfl
    · rw [mapO_mem_fail a.public_keys b hb h]
      cases bytes32 a.key_image <;> rfl
  · intro a b hb h
    simp only [import_pem_value]
    split
    · rfl
    · rw [mapO_mem_fail a.c b hb h]
      cases bytes32 a.key_image <;> [rfl; cases mapO bytes32 a.public_keys <;> rfl]
  · intro a b hb h
    simp only [import_pem_value]
    split
    · rfl
    · rw [mapO_mem_fail a.r b hb h]
      cases bytes32 a.key_image with
      | none => rfl
      | some ki =>
        cases mapO bytes32 a.public_keys with
        | none => rfl
        | some pks => cases mapO bytes32 a.c <;> rfl
  · intro a sig h
    simp only [import_pem_value] at h
    split at h
    · exact absurd h (by simp)
    · rcases hki : bytes32 a.key_image with _ | ki <;> rw [hki] at h
      · exact absurd h (by simp)
      rcases hpks : mapO bytes32 a.public_keys with _ | pks <;> rw [hpks] at h
      · exact absurd h (by simp)
      rcases hcs : mapO bytes32 a.c with _ | cs <;> rw [hcs] at h
      · exact absurd h (by simp)
      rcases hrs : mapO bytes32 a.r with _ | rs <;> rw [hrs] at h
      · exact absurd h (by simp)
      rw [← Option.some.inj h]
      exact ⟨mapO_some_eq _ _ hpks, mapO_some_eq _ _ hcs, mapO_some_eq _ _ hrs⟩

/-- Witness for the amended C4: a key image of the wrong length is
rejected. -/
theorem import_pem_rejects_non32_witness :
    import_pem_value ⟨objectId, [], [], [], []⟩ = none :=
  import_pem_rejects_non32.1 ⟨objectId, [], [], [], []⟩ (by decide)
